import Mathlib

/-!
Shallow embedding of `main.py` of the `astrbot_plugin_splitter` repository:
the message-component data model, the simple and smart segmenters
(`split_chain_smart`, `_process_text_simple`, `_process_text_smart`), the
segment-count capping step, the dispatch loop of `on_decorating_result`,
and the `log` branch of `calculate_delay`.

Regular-expression patterns are modelled as follows. The split patterns the
plugin is configured with are character classes of the shape `[...]+`; such a
pattern is embedded as the list of characters of the class, an anchored match
at a position being the maximal nonempty run of class characters starting
there, and `re.split(f"({pattern})", text)` being the alternation of maximal
runs of class / non-class characters. The cleanup substitution
`re.sub(clean_pattern, "", text)` is modelled as an arbitrary function on
strings. For the empty pattern (where a regex match exists but has length
zero) a matcher-parameterized, fuel-indexed copy of the smart loop is used.
-/

/-- A message chain component: `Plain` carries text (`astrbot`'s `Plain`
component); `Other` is any non-text component (image, mention, ...), kept
opaque up to an identifying payload. -/
inductive Comp where
  | Plain (text : String)
  | Other (payload : Nat)
deriving DecidableEq

/-- Whether a component is a `Plain` text component (`isinstance(c, Plain)`). -/
def isPlain : Comp → Bool
  | Comp.Plain _ => true
  | Comp.Other _ => false

/-- The concatenated text of all `Plain` components of a chain, in order,
as a character list (`"".join(c.text for c in chain if isinstance(c, Plain))`). -/
def plainChars : List Comp → List Char
  | [] => []
  | Comp.Plain s :: rest => s.data ++ plainChars rest
  | Comp.Other _ :: rest => plainChars rest

/-- The non-text components of a chain, in order. -/
def otherComps (l : List Comp) : List Comp := l.filter fun c => !(isPlain c)

/-- The ASCII single-quote character `'`. -/
def squote : Char := Char.ofNat 39

/-- The ASCII backslash character `\`. -/
def backslashChar : Char := Char.ofNat 92

/-- The plugin's `pair_map`: opener character to its expected closer;
`none` for characters that are not openers. -/
def pairMap : Char → Option Char
  | '“' => some '”'
  | '《' => some '》'
  | '（' => some '）'
  | '(' => some ')'
  | '[' => some ']'
  | '{' => some '}'
  | '"' => some '"'
  | c => if c = Char.ofNat 39 then some (Char.ofNat 39) else none

/-- The maximal prefix of a character list consisting of characters of the
class `cls`, together with the remaining suffix: the anchored regex match of
`[cls]+` at this position (empty first component = no match). -/
def takeRun (cls : List Char) : List Char → List Char × List Char
  | [] => ([], [])
  | c :: rest =>
    if c ∈ cls then (c :: (takeRun cls rest).1, (takeRun cls rest).2)
    else ([], c :: rest)

theorem takeRun_append (cls : List Char) : ∀ l : List Char,
    (takeRun cls l).1 ++ (takeRun cls l).2 = l := by
  intro l
  induction l with
  | nil => simp [takeRun]
  | cons c rest ih =>
    by_cases h : c ∈ cls <;> simp [takeRun, h, ih]

theorem takeRun_snd_length (cls : List Char) : ∀ l : List Char,
    (takeRun cls l).2.length ≤ l.length := by
  intro l
  induction l with
  | nil => simp [takeRun]
  | cons c rest ih =>
    by_cases h : c ∈ cls <;> simp [takeRun, h]
    · exact Nat.le_succ_of_le ih

/-- Tokenization of a text into the alternating maximal runs of class /
non-class characters, accumulator version: models the nonempty parts of
`re.split(f"({pattern})", text)` for a class pattern `[cls]+`. -/
def splitTokensAux (cls : List Char) : List Char → List Char → List (List Char)
  | [], acc => if acc = [] then [] else [acc.reverse]
  | c :: rest, acc =>
    match acc with
    | [] => splitTokensAux cls rest [c]
    | a :: as =>
      if (decide (a ∈ cls)) = (decide (c ∈ cls)) then
        splitTokensAux cls rest (c :: a :: as)
      else
        (a :: as).reverse :: splitTokensAux cls rest [c]

/-- The parts of `re.split(f"({pattern})", text)` for a class pattern,
with empty parts dropped (the loop skips them anyway). -/
def splitTokens (cls : List Char) (text : List Char) : List (List Char) :=
  splitTokensAux cls text []

/-- Whether a token is a delimiter token, i.e. `re.fullmatch(pattern, part)`
succeeds for the class pattern `[cls]+`: the part is nonempty and consists of
class characters only. -/
def isDelimTok (cls : List Char) (part : List Char) : Bool :=
  !part.isEmpty && part.all fun c => decide (c ∈ cls)

/-- The token walk of `_process_text_simple`: `parts` are the tokens of
`re.split(f"({pattern})", text)`, `temp` is `temp_text`, `segs` the segment
list built so far and `buf` the current chain buffer. Returns the updated
`(segments, buffer)` pair (both are mutated in place in the source). -/
def simpleWalk (isD : List Char → Bool) :
    List (List Char) → List Char → List (List Comp) → List Comp →
    List (List Comp) × List Comp
  | [], temp, segs, buf =>
    if temp = [] then (segs, buf) else (segs, buf ++ [Comp.Plain (String.mk temp)])
  | part :: parts, temp, segs, buf =>
    if part = [] then simpleWalk isD parts temp segs buf
    else if isD part then
      simpleWalk isD parts [] (segs ++ [buf ++ [Comp.Plain (String.mk (temp ++ part))]]) []
    else if temp = [] then
      simpleWalk isD parts part segs buf
    else
      simpleWalk isD parts part segs (buf ++ [Comp.Plain (String.mk temp)])

/-- `_process_text_simple` for a class pattern `[cls]+`. -/
def processTextSimple (cls : List Char) (text : String)
    (segs : List (List Comp)) (buf : List Comp) : List (List Comp) × List Comp :=
  simpleWalk (isDelimTok cls) (splitTokens cls text.data) [] segs buf

/-- The character loop of `_process_text_smart` for a class pattern `[cls]+`:
`text` is the unread suffix, `stack` the bracket/quote stack, `chunk` is
`current_chunk`, `segs` and `buf` the segment list and chain buffer. The
second component of the result records, for verification only, the value of
the stack at each segment emission (each split); it does not influence the
computation. -/
def smartGoS (cls : List Char) (text : List Char) (stack : List Char)
    (chunk : List Char) (segs : List (List Comp)) (buf : List Comp)
    (ems : List (List Char)) :
    (List (List Comp) × List Comp) × List (List Char) :=
  match text with
  | [] =>
    if chunk = [] then ((segs, buf), ems)
    else ((segs, buf ++ [Comp.Plain (String.mk chunk)]), ems)
  | c :: rest =>
    if c = '"' ∨ c = squote then
      match stack with
      | top :: stail =>
        if top = c then smartGoS cls rest stail (chunk ++ [c]) segs buf ems
        else smartGoS cls rest (c :: top :: stail) (chunk ++ [c]) segs buf ems
      | [] => smartGoS cls rest [c] (chunk ++ [c]) segs buf ems
    else
      match stack with
      | top :: stail =>
        if pairMap top = some c then
          smartGoS cls rest stail (chunk ++ [c]) segs buf ems
        else if (pairMap c).isSome then
          smartGoS cls rest (c :: top :: stail) (chunk ++ [c]) segs buf ems
        else
          smartGoS cls rest (top :: stail) (chunk ++ [c]) segs buf ems
      | [] =>
        if (pairMap c).isSome then
          smartGoS cls rest [c] (chunk ++ [c]) segs buf ems
        else if h : c ∈ cls then
          smartGoS cls (takeRun cls (c :: rest)).2 [] []
            (segs ++ [buf ++ [Comp.Plain (String.mk (chunk ++ (takeRun cls (c :: rest)).1))]]) []
            (ems ++ [([] : List Char)])
        else
          smartGoS cls rest [] (chunk ++ [c]) segs buf ems
termination_by text.length
decreasing_by
  all_goals simp_wf
  have hlen := takeRun_snd_length cls rest
  simp [takeRun, h]
  omega

/-- `_process_text_smart` for a class pattern `[cls]+`: the loop run from the
initial state (empty stack, empty chunk), emission record dropped. -/
def processTextSmart (cls : List Char) (text : String)
    (segs : List (List Comp)) (buf : List Comp) : List (List Comp) × List Comp :=
  (smartGoS cls text.data [] [] segs buf []).1

/-- One iteration of the component loop of `split_chain_smart`: non-text
components are appended to the current buffer, empty-text `Plain` components
are skipped, other `Plain` components are processed in the selected mode. -/
def splitChainStep (smartMode : Bool) (cls : List Char)
    (st : List (List Comp) × List Comp) (component : Comp) :
    List (List Comp) × List Comp :=
  match component with
  | Comp.Other p => (st.1, st.2 ++ [Comp.Other p])
  | Comp.Plain t =>
    if t = "" then st
    else if !smartMode then processTextSimple cls t st.1 st.2
    else processTextSmart cls t st.1 st.2

/-- `split_chain_smart`: fold the component loop over the chain, flush a
nonempty trailing buffer as a final segment, drop empty segments. -/
def splitChainSmart (smartMode : Bool) (cls : List Char) (chain : List Comp) :
    List (List Comp) :=
  let st := chain.foldl (splitChainStep smartMode cls) ([], [])
  let segs := if st.2 = [] then st.1 else st.1 ++ [st.2]
  segs.filter fun s => !s.isEmpty

/-- The character class denoted by the code's default pattern
`r"[。？！?!\\n…]+"` (`main.py` line 40): the raw string contains a double
backslash, which inside the class is an escaped literal backslash followed by
the letter n — the class therefore contains `\` and `n`, not the newline
character. -/
def codeDefaultCls : List Char :=
  ['。', '？', '！', '?', '!', backslashChar, 'n', '…']

/-- The character class the spec states as the default, `[。？！?!\n…]+` with
`\n` the newline character; stated for comparison with `codeDefaultCls`. -/
def specDefaultCls : List Char :=
  ['。', '？', '！', '?', '!', Char.ofNat 10, '…']

example : splitChainSmart false codeDefaultCls [Comp.Plain "你好。世界！"] =
    [[Comp.Plain "你好。"], [Comp.Plain "世界！"]] := by decide

example : splitChainSmart true codeDefaultCls [Comp.Plain "《测试。句子》继续。"] =
    [[Comp.Plain "《测试。句子》继续。"]] := by
  simp +decide [splitChainSmart, splitChainStep, processTextSmart, smartGoS, takeRun]

example : splitChainSmart true codeDefaultCls [Comp.Plain "a\nb"] =
    [[Comp.Plain "a\nb"]] := by
  simp +decide [splitChainSmart, splitChainStep, processTextSmart, smartGoS, takeRun]

example : splitChainSmart true codeDefaultCls [Comp.Plain "band"] =
    [[Comp.Plain "ban"], [Comp.Plain "d"]] := by
  simp +decide [splitChainSmart, splitChainStep, processTextSmart, smartGoS, takeRun]

example : splitChainSmart true specDefaultCls [Comp.Plain "a\nb"] =
    [[Comp.Plain "a\n"], [Comp.Plain "b"]] := by
  simp +decide [splitChainSmart, splitChainStep, processTextSmart, smartGoS, takeRun]

/-- The segment-count capping step of `on_decorating_result` (lines 50-60):
if the number of segments exceeds `maxSegs` and `maxSegs > 0`, keep the first
`maxSegs - 1` segments and merge all remaining segments, in order, into one
final segment; otherwise leave the list unchanged. -/
def capSegments (maxSegs : Int) (segments : List (List Comp)) : List (List Comp) :=
  if (segments.length : Int) > maxSegs ∧ maxSegs > 0 then
    segments.take (maxSegs - 1).toNat ++ [(segments.drop (maxSegs - 1).toNat).flatten]
  else segments

/-- One message actually handed to `context.send_message` by the dispatch
loop: its index `idx` in the capped segment list, the segment content after
cleanup, and whether an inter-segment delay is awaited after this send
(`i < len(segments) - 1`). -/
structure SendRec where
  idx : Nat
  seg : List Comp
  delayed : Bool
deriving DecidableEq

/-- The per-component cleanup of the dispatch loop
(`if isinstance(comp, Plain) and comp.text: comp.text = re.sub(clean_pattern, "", comp.text)`),
with the substitution modelled by `cleanFn`. -/
def cleanComp (cleanFn : String → String) : Comp → Comp
  | Comp.Plain t => if t = "" then Comp.Plain t else Comp.Plain (cleanFn t)
  | c => c

/-- The cleanup applied to one segment before sending: when a cleanup
pattern is configured (`cleanOn`), every `Plain` component's text is
rewritten by `cleanComp`; otherwise the segment is unchanged. -/
def cleanSeg (cleanOn : Bool) (cleanFn : String → String) (seg : List Comp) :
    List Comp :=
  if cleanOn then seg.map (cleanComp cleanFn) else seg

/-- The dispatch loop of `on_decorating_result` (lines 69-98): for each
segment in order, skip it if it is empty; apply the cleanup when a cleanup
pattern is configured (`cleanOn`); skip the segment if it consists only of
`Plain` components whose combined text is empty; otherwise send it, with the
delay awaited exactly when the segment is not at the last position. Returns
the list of sends performed. -/
def dispatchSends (cleanOn : Bool) (cleanFn : String → String)
    (segments : List (List Comp)) : List SendRec :=
  segments.enum.filterMap fun p =>
    if p.2.isEmpty then none
    else
      if (cleanSeg cleanOn cleanFn p.2).all isPlain ∧
          plainChars (cleanSeg cleanOn cleanFn p.2) = [] then none
      else some ⟨p.1, cleanSeg cleanOn cleanFn p.2, decide (p.1 + 1 < segments.length)⟩

/-- The per-event state the plugin reads and writes: the `__is_llm_reply`
marker, the `__splitter_processed` marker, and the result chain. -/
structure Event where
  isLlmReply : Bool
  processed : Bool
  chain : List Comp
deriving DecidableEq

/-- The configuration values `on_decorating_result` reads: the split pattern
(as a character class), whether a cleanup pattern is configured and the
substitution it performs, `enable_smart_split`, and `max_segments`. -/
structure Config where
  splitCls : List Char
  cleanOn : Bool
  cleanFn : String → String
  smartMode : Bool
  maxSegs : Int

/-- `on_decorating_result`: guard checks, segmentation, capping, the
single-segment shortcut, the dispatch loop, and the final clearing of the
original chain. Returns the updated event state and the list of sends. -/
def onDecoratingResult (cfg : Config) (ev : Event) : Event × List SendRec :=
  if !ev.isLlmReply then (ev, [])
  else if ev.processed then (ev, [])
  else
    let ev1 : Event := { ev with processed := true }
    if ev1.chain.isEmpty then (ev1, [])
    else
      let segments := capSegments cfg.maxSegs
        (splitChainSmart cfg.smartMode cfg.splitCls ev1.chain)
      if segments.length ≤ 1 ∧ !cfg.cleanOn then (ev1, [])
      else ({ ev1 with chain := [] }, dispatchSends cfg.cleanOn cfg.cleanFn segments)

/-- The `log` branch of `calculate_delay` (lines 115-120):
`min(base + factor * ln(length + 1), 5.0)` for a text of length `length`,
floating-point arithmetic modelled over the reals. -/
noncomputable def calculateDelayLog (logBase logFactor : ℝ) (length : ℕ) : ℝ :=
  min (logBase + logFactor * Real.log (length + 1)) 5

/-- The character loop of `_process_text_smart` for an arbitrary anchored
matcher `matchAt` (given the unread suffix, it returns the matched delimiter,
a prefix of the suffix, or `none`), instrumented with explicit step fuel:
`none` means the loop performs more than `fuel` iterations. This is the same
loop as `smartGoS`, stated for patterns whose regex match may have length
zero (then `i += len(delimiter)` does not advance the position). -/
def smartGoM (matchAt : List Char → Option (List Char)) :
    Nat → List Char → List Char → List Char → List (List Comp) → List Comp →
    Option (List (List Comp) × List Comp)
  | _, [], _, chunk, segs, buf =>
    some (if chunk = [] then (segs, buf) else (segs, buf ++ [Comp.Plain (String.mk chunk)]))
  | 0, _ :: _, _, _, _, _ => none
  | fuel + 1, c :: rest, stack, chunk, segs, buf =>
    if c = '"' ∨ c = squote then
      match stack with
      | top :: stail =>
        if top = c then smartGoM matchAt fuel rest stail (chunk ++ [c]) segs buf
        else smartGoM matchAt fuel rest (c :: top :: stail) (chunk ++ [c]) segs buf
      | [] => smartGoM matchAt fuel rest [c] (chunk ++ [c]) segs buf
    else
      match stack with
      | top :: stail =>
        if pairMap top = some c then
          smartGoM matchAt fuel rest stail (chunk ++ [c]) segs buf
        else if (pairMap c).isSome then
          smartGoM matchAt fuel rest (c :: top :: stail) (chunk ++ [c]) segs buf
        else
          smartGoM matchAt fuel rest (top :: stail) (chunk ++ [c]) segs buf
      | [] =>
        if (pairMap c).isSome then
          smartGoM matchAt fuel rest [c] (chunk ++ [c]) segs buf
        else
          match matchAt (c :: rest) with
          | some d =>
            smartGoM matchAt fuel ((c :: rest).drop d.length) [] []
              (segs ++ [buf ++ [Comp.Plain (String.mk (chunk ++ d))]]) []
          | none => smartGoM matchAt fuel rest [] (chunk ++ [c]) segs buf

/-- The anchored matcher of the empty pattern: `re.compile("")` matches the
empty string at every position. -/
def emptyPatternMatch : List Char → Option (List Char) := fun _ => some []

/-- The nonempty parts of `re.split("()", text)` for the empty pattern:
the pattern matches the empty string at every position, so every nonempty
part is a single character of the text, in order. -/
def emptyPatTokens (text : String) : List (List Char) :=
  text.data.map fun c => [c]

/-- The delimiter test of `_process_text_simple` for the empty pattern:
`re.fullmatch("", part)` succeeds only for the empty part. -/
def emptyPatIsDelim (part : List Char) : Bool := part.isEmpty

/-- A concrete cleanup substitution: `re.sub("a", "", text)` removes every
occurrence of the letter a. -/
def removeA (s : String) : String := String.mk (s.data.filter fun c => !(c = 'a'))

example : capSegments 3 [[Comp.Other 1], [Comp.Other 2], [Comp.Other 3], [Comp.Other 4]] =
    [[Comp.Other 1], [Comp.Other 2], [Comp.Other 3, Comp.Other 4]] := by decide

example : dispatchSends true removeA [[Comp.Plain "ab。"], [Comp.Plain "a"]] =
    [⟨0, [Comp.Plain "b。"], true⟩] := by decide

example : dispatchSends true removeA [[Comp.Plain "a", Comp.Plain "b。"]] =
    [⟨0, [Comp.Plain "", Comp.Plain "b。"], false⟩] := by decide

theorem data_mk (l : List Char) : (String.mk l).data = l := rfl

theorem plainChars_append (a b : List Comp) :
    plainChars (a ++ b) = plainChars a ++ plainChars b := by
  induction a with
  | nil => simp [plainChars]
  | cons c rest ih => cases c <;> simp [plainChars, ih]

theorem otherComps_append (a b : List Comp) :
    otherComps (a ++ b) = otherComps a ++ otherComps b := by
  simp [otherComps, List.filter_append]

theorem flatten_filter_nonempty (l : List (List Comp)) :
    (l.filter fun s => !s.isEmpty).flatten = l.flatten := by
  induction l with
  | nil => simp
  | cons s rest ih =>
    by_cases h : s = [] <;> simp [h, ih]

theorem splitTokensAux_flatten (cls : List Char) : ∀ (text acc : List Char),
    (splitTokensAux cls text acc).flatten = acc.reverse ++ text := by
  intro text
  induction text with
  | nil =>
    intro acc
    by_cases h : acc = [] <;> simp [splitTokensAux, h]
  | cons c rest ih =>
    intro acc
    match acc with
    | [] => simp [splitTokensAux, ih]
    | a :: as =>
      by_cases h : (decide (a ∈ cls)) = (decide (c ∈ cls)) <;>
        simp [splitTokensAux, h, ih]

theorem simpleWalk_plain (isD : List Char → Bool) : ∀ (parts : List (List Char))
    (temp : List Char) (segs : List (List Comp)) (buf : List Comp),
    plainChars ((simpleWalk isD parts temp segs buf).1.flatten ++
        (simpleWalk isD parts temp segs buf).2)
      = plainChars (segs.flatten ++ buf) ++ temp ++ parts.flatten := by
  intro parts
  induction parts with
  | nil =>
    intro temp segs buf
    by_cases h : temp = [] <;>
      simp [simpleWalk, h, plainChars_append, plainChars, data_mk]
  | cons part parts ih =>
    intro temp segs buf
    by_cases hp : part = []
    · simp [simpleWalk, hp, ih]
    · by_cases hd : isD part
      · simp [simpleWalk, hp, hd, ih, plainChars_append, plainChars, data_mk]
      · by_cases ht : temp = [] <;>
          simp [simpleWalk, hp, hd, ht, ih, plainChars_append, plainChars, data_mk]

theorem otherComps_plain_singleton (s : String) : otherComps [Comp.Plain s] = [] := rfl

theorem otherComps_nil : otherComps [] = [] := rfl

theorem simpleWalk_other (isD : List Char → Bool) : ∀ (parts : List (List Char))
    (temp : List Char) (segs : List (List Comp)) (buf : List Comp),
    otherComps ((simpleWalk isD parts temp segs buf).1.flatten ++
        (simpleWalk isD parts temp segs buf).2)
      = otherComps (segs.flatten ++ buf) := by
  intro parts
  induction parts with
  | nil =>
    intro temp segs buf
    by_cases h : temp = [] <;>
      simp [simpleWalk, h, otherComps_append, otherComps_plain_singleton]
  | cons part parts ih =>
    intro temp segs buf
    by_cases hp : part = []
    · simp [simpleWalk, hp, ih]
    · by_cases hd : isD part
      · simp [simpleWalk, hp, hd, ih, otherComps_append, otherComps_plain_singleton]
      · by_cases ht : temp = [] <;>
          simp [simpleWalk, hp, hd, ht, ih, otherComps_append, otherComps_plain_singleton]

theorem smartGoS_plain (cls : List Char) (text stack chunk : List Char)
    (segs : List (List Comp)) (buf : List Comp) (ems : List (List Char)) :
    plainChars ((smartGoS cls text stack chunk segs buf ems).1.1.flatten ++
        (smartGoS cls text stack chunk segs buf ems).1.2)
      = plainChars (segs.flatten ++ buf) ++ chunk ++ text := by
  induction text, stack, chunk, segs, buf, ems using smartGoS.induct cls
  all_goals
    simp_all [smartGoS, plainChars_append, plainChars, data_mk, takeRun_append]

theorem smartGoS_other (cls : List Char) (text stack chunk : List Char)
    (segs : List (List Comp)) (buf : List Comp) (ems : List (List Char)) :
    otherComps ((smartGoS cls text stack chunk segs buf ems).1.1.flatten ++
        (smartGoS cls text stack chunk segs buf ems).1.2)
      = otherComps (segs.flatten ++ buf) := by
  induction text, stack, chunk, segs, buf, ems using smartGoS.induct cls
  all_goals
    simp_all [smartGoS, otherComps_append, otherComps_plain_singleton]

theorem data_empty : ("" : String).data = [] := rfl

theorem foldl_split_plain (smartMode : Bool) (cls : List Char) : ∀ (chain : List Comp)
    (st : List (List Comp) × List Comp),
    plainChars ((chain.foldl (splitChainStep smartMode cls) st).1.flatten ++
        (chain.foldl (splitChainStep smartMode cls) st).2)
      = plainChars (st.1.flatten ++ st.2) ++ plainChars chain := by
  intro chain
  induction chain with
  | nil => intro st; simp [plainChars]
  | cons comp chain ih =>
    intro st
    cases comp with
    | Other p =>
      simp [splitChainStep, ih, plainChars, plainChars_append]
    | Plain t =>
      by_cases ht : t = ""
      · simp [splitChainStep, ht, ih, plainChars, data_empty]
      · cases smartMode with
        | false =>
          have hw := simpleWalk_plain (isDelimTok cls) (splitTokens cls t.data) [] st.1 st.2
          have hs := splitTokensAux_flatten cls t.data []
          simp only [splitTokens] at hw
          simp [splitChainStep, ht, processTextSimple, ih, plainChars, hw, hs,
            splitTokens, List.append_assoc]
        | true =>
          have hw := smartGoS_plain cls t.data [] [] st.1 st.2 []
          simp [splitChainStep, ht, processTextSmart, ih, plainChars, hw]

theorem foldl_split_other (smartMode : Bool) (cls : List Char) : ∀ (chain : List Comp)
    (st : List (List Comp) × List Comp),
    otherComps ((chain.foldl (splitChainStep smartMode cls) st).1.flatten ++
        (chain.foldl (splitChainStep smartMode cls) st).2)
      = otherComps (st.1.flatten ++ st.2) ++ otherComps chain := by
  intro chain
  induction chain with
  | nil => intro st; simp [otherComps]
  | cons comp chain ih =>
    intro st
    cases comp with
    | Other p =>
      simp [splitChainStep, ih, otherComps_append]
      simp [otherComps, isPlain]
    | Plain t =>
      by_cases ht : t = ""
      · simp [splitChainStep, ht, ih, otherComps_plain_singleton]
        simp [otherComps, isPlain]
      · cases smartMode with
        | false =>
          have hw := simpleWalk_other (isDelimTok cls) (splitTokens cls t.data) [] st.1 st.2
          simp [splitChainStep, ht, processTextSimple, ih, hw, otherComps_plain_singleton]
          simp [otherComps, isPlain]
        | true =>
          have hw := smartGoS_other cls t.data [] [] st.1 st.2 []
          simp [splitChainStep, ht, processTextSmart, ih, hw, otherComps_plain_singleton]
          simp [otherComps, isPlain]

/-- C1: for every input chain and split pattern (character class), in both
simple and smart mode, the concatenation of the text of all `Plain`
components across the output segments of the segmenter, in order, equals the
concatenation of the text of all `Plain` components of the input chain, and
the non-text components appear in the output, in order, exactly as in the
input. -/
theorem C1_content_preservation (smartMode : Bool) (cls : List Char) (chain : List Comp) :
    plainChars (splitChainSmart smartMode cls chain).flatten = plainChars chain ∧
    otherComps (splitChainSmart smartMode cls chain).flatten = otherComps chain := by
  have h1 := foldl_split_plain smartMode cls chain ([], [])
  have h2 := foldl_split_other smartMode cls chain ([], [])
  constructor
  · simp only [splitChainSmart, flatten_filter_nonempty]
    by_cases hb : (chain.foldl (splitChainStep smartMode cls) ([], [])).2 = []
    · rw [if_pos hb]
      rw [hb] at h1
      simpa [plainChars, plainChars_append] using h1
    · rw [if_neg hb]
      simpa [plainChars, plainChars_append] using h1
  · simp only [splitChainSmart, flatten_filter_nonempty]
    by_cases hb : (chain.foldl (splitChainStep smartMode cls) ([], [])).2 = []
    · rw [if_pos hb]
      rw [hb] at h2
      simpa [otherComps_nil, otherComps_append] using h2
    · rw [if_neg hb]
      simpa [otherComps_nil, otherComps_append] using h2

theorem smartGoS_ems (cls : List Char) (text stack chunk : List Char)
    (segs : List (List Comp)) (buf : List Comp) (ems : List (List Char)) :
    ((smartGoS cls text stack chunk segs buf ems).2).all List.isEmpty
      = ems.all List.isEmpty := by
  induction text, stack, chunk, segs, buf, ems using smartGoS.induct cls
  all_goals simp_all [smartGoS]

/-- C2: in smart mode no segment boundary is created while the bracket/quote
stack is non-empty: in every run of the smart loop, the stack recorded at
every segment emission is empty (the loop only attempts a delimiter match
when the stack is empty); in particular, smart mode with the default pattern
leaves `《测试。句子》继续。` as a single segment, split only after the final
`。`, and does not split at the `。` inside `“A。B”`. -/
theorem C2_no_split_inside_spans :
    (∀ (cls : List Char) (text : String) (segs : List (List Comp)) (buf : List Comp),
      ((smartGoS cls text.data [] [] segs buf []).2).all List.isEmpty = true) ∧
    splitChainSmart true codeDefaultCls [Comp.Plain "《测试。句子》继续。"] =
      [[Comp.Plain "《测试。句子》继续。"]] ∧
    splitChainSmart true codeDefaultCls [Comp.Plain "“A。B”好。"] =
      [[Comp.Plain "“A。B”好。"]] := by
  refine ⟨?_, ?_, ?_⟩
  · intro cls text segs buf
    simpa using smartGoS_ems cls text.data [] [] segs buf []
  · simp +decide [splitChainSmart, splitChainStep, processTextSmart, smartGoS, takeRun]
  · simp +decide [splitChainSmart, splitChainStep, processTextSmart, smartGoS, takeRun]

/-- C3: the segment-count capper returns the list unchanged when `M ≤ 0` or
when there are at most `M` segments; otherwise it returns exactly `M`
segments, the first `M - 1` being the first `M - 1` input segments and the
last being the in-order concatenation of all input segments from the `M`-th
on. -/
theorem C3_segment_capper (M : Int) (S : List (List Comp)) :
    ((M ≤ 0 ∨ (S.length : Int) ≤ M) → capSegments M S = S) ∧
    ((S.length : Int) > M ∧ M > 0 →
      (capSegments M S).length = M.toNat ∧
      (capSegments M S).take (M.toNat - 1) = S.take (M.toNat - 1) ∧
      (capSegments M S).getLast? = some ((S.drop (M.toNat - 1)).flatten)) := by
  constructor
  · intro h
    have hne : ¬((S.length : Int) > M ∧ M > 0) := by omega
    simp [capSegments, hne]
  · rintro ⟨h1, h2⟩
    rw [capSegments, if_pos ⟨h1, h2⟩]
    have hM : (M - 1).toNat = M.toNat - 1 := by omega
    have hlen : M.toNat - 1 ≤ S.length := by omega
    refine ⟨?_, ?_, ?_⟩
    · simp only [hM, List.length_append, List.length_take, List.length_cons,
        List.length_nil]
      omega
    · rw [hM]
      rw [List.take_append_eq_append_take]
      have hlt : (S.take (M.toNat - 1)).length = M.toNat - 1 := by
        simp [List.length_take]
        omega
      simp [hlt]
    · rw [hM, List.getLast?_concat]

/-- The ten-segment list of the capping example. -/
def S10ex : List (List Comp) :=
  [[Comp.Other 1], [Comp.Other 2], [Comp.Other 3], [Comp.Other 4], [Comp.Other 5],
   [Comp.Other 6], [Comp.Other 7], [Comp.Other 8], [Comp.Other 9], [Comp.Other 10]]

theorem C3_segment_capper_witness :
    ((S10ex.length : Int) > 3 ∧ (3 : Int) > 0) ∧
    ((capSegments 3 S10ex).length = (3 : Int).toNat ∧
      (capSegments 3 S10ex).take ((3 : Int).toNat - 1) = S10ex.take ((3 : Int).toNat - 1) ∧
      (capSegments 3 S10ex).getLast? = some ((S10ex.drop ((3 : Int).toNat - 1)).flatten)) :=
  ⟨by decide, (C3_segment_capper 3 S10ex).2 (by decide)⟩

/-- C4: the claim states that the default split pattern is `[。？！?!\n…]+`
with `\n` the newline, so a newline would be a delimiter. The code's default
is the raw string `r"[。？！?!\\n…]+"` (`main.py` line 40), whose class
contains the escaped backslash `\` and the letter n instead of the newline:
with the code's default, `a\nb` is not split at the newline while `band` is
split after the letter n; with the class the spec intends, `a\nb` is split at
the newline. -/
theorem C4_default_pattern_bug :
    (Char.ofNat 10) ∉ codeDefaultCls ∧ 'n' ∈ codeDefaultCls ∧
    backslashChar ∈ codeDefaultCls ∧ (Char.ofNat 10) ∈ specDefaultCls ∧
    splitChainSmart true codeDefaultCls [Comp.Plain "a\nb"] = [[Comp.Plain "a\nb"]] ∧
    splitChainSmart true codeDefaultCls [Comp.Plain "band"] =
      [[Comp.Plain "ban"], [Comp.Plain "d"]] ∧
    splitChainSmart true specDefaultCls [Comp.Plain "a\nb"] =
      [[Comp.Plain "a\n"], [Comp.Plain "b"]] := by
  refine ⟨by decide, by decide, by decide, by decide, ?_, ?_, ?_⟩ <;>
    simp +decide [splitChainSmart, splitChainStep, processTextSmart, smartGoS, takeRun]

theorem smartGoM_empty_loop : ∀ (fuel : Nat) (chunk : List Char)
    (segs : List (List Comp)) (buf : List Comp),
    smartGoM emptyPatternMatch fuel ['a'] [] chunk segs buf = none := by
  intro fuel
  induction fuel with
  | zero => intro chunk segs buf; rfl
  | succ fuel ih =>
    intro chunk segs buf
    exact ih [] (segs ++ [buf ++ [Comp.Plain (String.mk (chunk ++ []))]]) []

/-- C5: the claim states that with the empty split pattern the matcher
matches nothing and both modes terminate with at most one segment. In simple
mode this holds (`re.split` fragments the text into single characters, none a
delimiter, and everything stays in one open chain); but in smart mode
`re.compile("").match` produces an empty match at every ordinary position and
`i += len(delimiter)` does not advance, so the loop never terminates: on the
one-character text `a` the fuel-indexed run returns `none` for every fuel. -/
theorem C5_empty_pattern_loop :
    (∀ fuel : Nat, smartGoM emptyPatternMatch fuel "a".data [] [] [] [] = none) ∧
    simpleWalk emptyPatIsDelim (emptyPatTokens "ab") [] [] [] =
      ([], [Comp.Plain "a", Comp.Plain "b"]) := by
  constructor
  · intro fuel; exact smartGoM_empty_loop fuel [] [] []
  · decide

/-- C6: in simple mode a delimiter token is appended to the accumulated
preceding text and the combination is flushed as one `Plain` component
closing the current segment; in particular the default pattern splits
`你好。世界！` into exactly `你好。` and `世界！`. -/
theorem C6_simple_mode (isD : List Char → Bool) (part : List Char)
    (parts : List (List Char)) (temp : List Char) (segs : List (List Comp))
    (buf : List Comp) (hne : part ≠ []) (hd : isD part = true) :
    simpleWalk isD (part :: parts) temp segs buf =
      simpleWalk isD parts [] (segs ++ [buf ++ [Comp.Plain (String.mk (temp ++ part))]]) [] ∧
    splitChainSmart false codeDefaultCls [Comp.Plain "你好。世界！"] =
      [[Comp.Plain "你好。"], [Comp.Plain "世界！"]] := by
  constructor
  · simp [simpleWalk, hne, hd]
  · decide

theorem C6_simple_mode_witness :
    (("。".data ≠ []) ∧ isDelimTok codeDefaultCls "。".data = true) ∧
    (simpleWalk (isDelimTok codeDefaultCls) ["。".data] "你好".data [] [] =
      simpleWalk (isDelimTok codeDefaultCls) [] []
        ([] ++ [[] ++ [Comp.Plain (String.mk ("你好".data ++ "。".data))]]) [] ∧
    splitChainSmart false codeDefaultCls [Comp.Plain "你好。世界！"] =
      [[Comp.Plain "你好。"], [Comp.Plain "世界！"]]) :=
  ⟨⟨by decide, by decide⟩,
    C6_simple_mode (isDelimTok codeDefaultCls) "。".data [] "你好".data [] []
      (by decide) (by decide)⟩

/-- The configuration of the C7 scenario: default split class, smart mode,
`max_segments = 7`, and the cleanup regex `a` (remove every letter a). -/
def cfgC7 : Config := ⟨codeDefaultCls, true, removeA, true, 7⟩

/-- The event of the C7 scenario: an unprocessed generation reply whose chain
is `[Plain "a", Plain "b。"]`. -/
def evC7 : Event := ⟨true, false, [Comp.Plain "a", Comp.Plain "b。"]⟩

/-- C7 counterexample: the claim says every segment handed to the sender has
no `Plain` component with empty text. With cleanup regex `a` on the chain
`[Plain "a", Plain "b。"]`, the dispatched segment is
`[Plain "", Plain "b。"]`: its combined text `b。` is nonempty so it is sent,
yet it contains the empty `Plain`. -/
theorem C7_counterexample :
    ¬(∀ r ∈ (onDecoratingResult cfgC7 evC7).2, ∀ c ∈ r.seg, c ≠ Comp.Plain "") := by
  have hev : (onDecoratingResult cfgC7 evC7).2 =
      [⟨0, [Comp.Plain "", Comp.Plain "b。"], false⟩] := by
    simp +decide [onDecoratingResult, cfgC7, evC7, splitChainSmart, splitChainStep,
      processTextSmart, smartGoS, takeRun, capSegments, dispatchSends, cleanComp,
      removeA, plainChars, isPlain, data_mk]
  intro hall
  have h := hall ⟨0, [Comp.Plain "", Comp.Plain "b。"], false⟩
    (by rw [hev]; exact List.mem_singleton.mpr rfl) (Comp.Plain "") (by decide)
  exact h rfl

/-- C7 amended: a segment handed to the sender may contain `Plain` components
with empty text after cleanup; what holds is that no dispatched segment
consists solely of `Plain` components whose combined text is empty (such
segments are skipped). -/
theorem C7_amended_sent_not_all_empty (cleanOn : Bool) (cleanFn : String → String)
    (segments : List (List Comp)) (r : SendRec)
    (hr : r ∈ dispatchSends cleanOn cleanFn segments) :
    ¬(r.seg.all isPlain = true ∧ plainChars r.seg = []) := by
  rcases List.mem_filterMap.mp hr with ⟨p, hp, hf⟩
  split at hf
  · cases hf
  · split at hf
    · cases hf
    · rename_i hcond
      have heq := Option.some.inj hf
      rw [← heq]
      exact hcond

theorem C7_amended_witness :
    ((⟨0, [Comp.Plain "b。"], false⟩ : SendRec) ∈
      dispatchSends true removeA [[Comp.Plain "ab。"]]) ∧
    ¬((((⟨0, [Comp.Plain "b。"], false⟩ : SendRec)).seg.all isPlain = true) ∧
      plainChars ((⟨0, [Comp.Plain "b。"], false⟩ : SendRec)).seg = []) :=
  ⟨by decide,
    C7_amended_sent_not_all_empty true removeA [[Comp.Plain "ab。"]]
      ⟨0, [Comp.Plain "b。"], false⟩ (by decide)⟩

/-- C8: the `log` delay strategy returns `base + factor * ln(length + 1)`
clamped at the ceiling 5.0; with `base = 0.5`, `factor = 0.8` a text of
length 0 yields exactly 0.5, and for every text the delay never exceeds
5.0. -/
theorem C8_log_delay :
    (∀ (b f : ℝ) (n : ℕ), calculateDelayLog b f n = min (b + f * Real.log (n + 1)) 5) ∧
    calculateDelayLog 0.5 0.8 0 = 0.5 ∧
    (∀ (b f : ℝ) (n : ℕ), calculateDelayLog b f n ≤ 5) := by
  refine ⟨fun b f n => rfl, ?_, fun b f n => min_le_right _ _⟩
  have h1 : ((0 : ℕ) : ℝ) + 1 = 1 := by norm_num
  rw [calculateDelayLog, h1, Real.log_one, mul_zero, add_zero]
  exact min_eq_left (by norm_num)

/-- C9: if the event is not a generation-provider reply, or is already marked
processed, or its chain is empty, processing sends nothing and leaves the
chain unchanged; and running the processing twice dispatches at most once
(the second run never sends). -/
theorem C9_guards (cfg : Config) (ev : Event) :
    ((ev.isLlmReply = false ∨ ev.processed = true ∨ ev.chain = []) →
      (onDecoratingResult cfg ev).2 = [] ∧
      (onDecoratingResult cfg ev).1.chain = ev.chain) ∧
    (onDecoratingResult cfg (onDecoratingResult cfg ev).1).2 = [] := by
  constructor
  · intro h
    rcases h with h | h | h
    · simp [onDecoratingResult, h]
    · by_cases hl : ev.isLlmReply <;> simp [onDecoratingResult, h, hl]
    · by_cases hl : ev.isLlmReply
      · by_cases hp : ev.processed <;> simp [onDecoratingResult, h, hl, hp]
      · simp [onDecoratingResult, hl]
  · by_cases hl : ev.isLlmReply
    · by_cases hp : ev.processed
      · simp [onDecoratingResult, hl, hp]
      · have hproc : (onDecoratingResult cfg ev).1.processed = true ∧
            (onDecoratingResult cfg ev).1.isLlmReply = true := by
          simp only [onDecoratingResult, hl, hp]
          split_ifs <;> simp_all
        set ev2 := (onDecoratingResult cfg ev).1 with hev2
        obtain ⟨h1, h2⟩ := hproc
        simp [onDecoratingResult, h1, h2]
    · simp [onDecoratingResult, hl]

/-- The configuration of the C9 witness: default class, no cleanup, smart
mode, `max_segments = 7`. -/
def cfgW9 : Config := ⟨codeDefaultCls, false, removeA, true, 7⟩

/-- The event of the C9 witness: a reply already marked processed. -/
def evW9 : Event := ⟨true, true, [Comp.Plain "x"]⟩

theorem C9_guards_witness :
    (evW9.isLlmReply = false ∨ evW9.processed = true ∨ evW9.chain = []) ∧
    ((onDecoratingResult cfgW9 evW9).2 = [] ∧
      (onDecoratingResult cfgW9 evW9).1.chain = evW9.chain) :=
  ⟨Or.inr (Or.inl rfl), (C9_guards cfgW9 evW9).1 (Or.inr (Or.inl rfl))⟩

/-- C10: a send of the dispatch loop is followed by an awaited delay exactly
when its segment is not at the last position of the capped segment list,
regardless of whether any later segment is actually sent; in particular when
the only later segment is skipped as empty after cleanup, the last message
actually sent still gets a delay. -/
theorem C10_delay_iff (cleanOn : Bool) (cleanFn : String → String)
    (segments : List (List Comp)) (r : SendRec)
    (hr : r ∈ dispatchSends cleanOn cleanFn segments) :
    (r.delayed = true ↔ r.idx + 1 < segments.length) ∧
    dispatchSends true removeA [[Comp.Plain "ab。"], [Comp.Plain "a"]] =
      [⟨0, [Comp.Plain "b。"], true⟩] := by
  constructor
  · rcases List.mem_filterMap.mp hr with ⟨p, hp, hf⟩
    split at hf
    · cases hf
    · split at hf
      · cases hf
      · have heq := Option.some.inj hf
        rw [← heq]
        simp
  · decide

theorem C10_delay_iff_witness :
    ((⟨0, [Comp.Plain "b。"], true⟩ : SendRec) ∈
      dispatchSends true removeA [[Comp.Plain "ab。"], [Comp.Plain "a"]]) ∧
    (((⟨0, [Comp.Plain "b。"], true⟩ : SendRec).delayed = true ↔
        (⟨0, [Comp.Plain "b。"], true⟩ : SendRec).idx + 1 <
          ([[Comp.Plain "ab。"], [Comp.Plain "a"]] : List (List Comp)).length) ∧
      dispatchSends true removeA [[Comp.Plain "ab。"], [Comp.Plain "a"]] =
        [⟨0, [Comp.Plain "b。"], true⟩]) :=
  ⟨by decide,
    C10_delay_iff true removeA [[Comp.Plain "ab。"], [Comp.Plain "a"]]
      ⟨0, [Comp.Plain "b。"], true⟩ (by decide)⟩
